import Mathlib

/-!
Shallow embedding of `torch/_export/passes/add_runtime_assertions_for_constraints_pass.py`.

The pass compiles per-input shape constraints (range and equality) plus
inline constraints on intermediate symbolic values into runtime assertion
nodes inserted into a new graph.  We model the new graph under construction
as a list of nodes (`Trace`); a node's id is its position in the list, which
is exactly how the fx tracer numbers freshly created nodes.  Python's
`math.inf` upper bound is modelled by `⊤ : WithTop ℤ`.
-/

namespace RuntimeAssertions

/-- Extended integers: a Python `int` or `math.inf` (`⊤`). -/
abbrev ExtInt := WithTop ℤ

/-- A sympy bound value as `_convert_to_int` classifies it: `sympy.oo`,
a `sympy.Integer`, or any other (symbolic) expression. -/
inductive SymBound
  | oo
  | intVal (n : ℤ)
  | symbolic (s : String)
deriving DecidableEq, Repr

/-- Python exceptions raised by the pass. -/
inductive PyErr
  | runtimeError (msg : String)
  | assertionError
  | attributeError (attr : String)
  | keyError (key : String)
deriving DecidableEq, Repr

/-- `_convert_to_int`: `sympy.oo ↦ math.inf`, `sympy.Integer ↦ int`, anything
else raises `RuntimeError`. -/
def _convert_to_int : SymBound → Except PyErr ExtInt
  | .oo => .ok ⊤
  | .intVal n => .ok (n : ℤ)
  | .symbolic _ =>
    .error (.runtimeError "Export constraints cannot be non-integer expressions")

/-- `ConstraintSpec` and its two subclasses, flattened into one inductive. -/
inductive ConstraintSpec
  | range (constraint_dim : ℕ) (min_val max_val : ExtInt)
  | equality (constraint_dim : ℕ) (other_name : String) (other_dim : ℕ)
deriving DecidableEq, Repr

/-- The dimension a constraint governs (`constraint_dim` field). -/
def ConstraintSpec.constraint_dim : ConstraintSpec → ℕ
  | .range d _ _ => d
  | .equality d _ _ => d

/-- The raw `{"range": [...], "equality": [...]}` record for one input. -/
structure ShapeConstraints where
  range : List (ℕ × SymBound × SymBound)
  equality : List (ℕ × String × ℕ)
deriving DecidableEq, Repr

/-- Append `x` to the bucket of key `k` in an insertion-ordered association
list with list values: the behaviour of `defaultdict(list)` indexing plus
`append`, with dict keys iterated in insertion order. -/
def pushAssoc {α : Type} (k : ℕ) (x : α) : List (ℕ × List α) → List (ℕ × List α)
  | [] => [(k, [x])]
  | (k', xs) :: rest =>
    if k = k' then (k', xs ++ [x]) :: rest else (k', xs) :: pushAssoc k x rest

/-- First-match lookup in a string-keyed association list (Python dict read). -/
def lookupName {α : Type} (name : String) : List (String × α) → Option α
  | [] => none
  | (k, v) :: rest => if name = k then some v else lookupName name rest

/-- First loop of `_process_shape_constraints` over one input's `"range"`
list: convert both bounds of each tuple and group the tuples by dim. -/
def buildRangeGroups (acc : List (ℕ × List (ExtInt × ExtInt))) :
    List (ℕ × SymBound × SymBound) → Except PyErr (List (ℕ × List (ExtInt × ExtInt)))
  | [] => .ok acc
  | (dim, minv, maxv) :: rest => do
    let lo ← _convert_to_int minv
    let hi ← _convert_to_int maxv
    buildRangeGroups (pushAssoc dim (lo, hi) acc) rest

/-- First loop of `_process_shape_constraints` over one input's `"equality"`
list: group the tuples by dim. -/
def buildEqGroups (acc : List (ℕ × List (String × ℕ))) :
    List (ℕ × String × ℕ) → List (ℕ × List (String × ℕ))
  | [] => acc
  | (dim, oname, odim) :: rest => buildEqGroups (pushAssoc dim (oname, odim) acc) rest

/-- Per-input contents of `input_name_to_dim_constraints`. -/
structure DimConstraints where
  range : List (ℕ × List (ExtInt × ExtInt))
  equality : List (ℕ × List (String × ℕ))
deriving DecidableEq, Repr

/-- The whole first loop of `_process_shape_constraints`. -/
def buildDimConstraints :
    List (String × ShapeConstraints) → Except PyErr (List (String × DimConstraints))
  | [] => .ok []
  | (name, sc) :: rest => do
    let rg ← buildRangeGroups [] sc.range
    let eg := buildEqGroups [] sc.equality
    let tail ← buildDimConstraints rest
    .ok ((name, ⟨rg, eg⟩) :: tail)

/-- `sorted(l, reverse=True)[0]` on a nonempty `l` (default is unreachable). -/
def sortedDescHead (l : List ExtInt) : ExtInt :=
  (List.insertionSort (fun a b => b ≤ a) l).headD 0

/-- `sorted(l, reverse=False)[0]` on a nonempty `l` (default is unreachable). -/
def sortedAscHead (l : List ExtInt) : ExtInt :=
  (List.insertionSort (fun a b => a ≤ b) l).headD 0

/-- Merge body for one `(input, dim)` bucket: tightest intersection with the
`assert min_val <= max_val` guard (`AssertionError` when violated). -/
def mergeRangeGroup (dim : ℕ) (ts : List (ExtInt × ExtInt)) : Except PyErr ConstraintSpec :=
  let min_vals := ts.map Prod.fst
  let max_vals := ts.map Prod.snd
  let min_val := sortedDescHead min_vals
  let max_val := sortedAscHead max_vals
  if min_val ≤ max_val then .ok (.range dim min_val max_val)
  else .error .assertionError

/-- Merge loop over one input's range buckets (`if range_constraints:` guard
mirrored by the `isEmpty` test). -/
def mergeRanges : List (ℕ × List (ExtInt × ExtInt)) → Except PyErr (List ConstraintSpec)
  | [] => .ok []
  | (dim, ts) :: rest =>
    if ts.isEmpty then mergeRanges rest
    else do
      let spec ← mergeRangeGroup dim ts
      let tail ← mergeRanges rest
      .ok (spec :: tail)

/-- Flatten one input's equality buckets, one `EqualityConstraintSpec` per raw
tuple, dim buckets in insertion order. -/
def flattenEqs : List (ℕ × List (String × ℕ)) → List ConstraintSpec
  | [] => []
  | (dim, es) :: rest =>
    es.map (fun e => ConstraintSpec.equality dim e.1 e.2) ++ flattenEqs rest

/-- Second loop of `_process_shape_constraints`, one input. -/
def mergeName (dc : DimConstraints) : Except PyErr (List ConstraintSpec) := do
  let rs ← mergeRanges dc.range
  .ok (rs ++ flattenEqs dc.equality)

/-- Second loop of `_process_shape_constraints` over all inputs.  A name gets
a key in the `defaultdict(list)` result only when at least one spec was
appended for it. -/
def mergeAll : List (String × DimConstraints) → Except PyErr (List (String × List ConstraintSpec))
  | [] => .ok []
  | (name, dc) :: rest => do
    let specs ← mergeName dc
    let tail ← mergeAll rest
    .ok (if specs.isEmpty then tail else (name, specs) :: tail)

/-- `_process_shape_constraints`: both loops in sequence. -/
def _process_shape_constraints (constraints : List (String × ShapeConstraints)) :
    Except PyErr (List (String × List ConstraintSpec)) := do
  let dcs ← buildDimConstraints constraints
  mergeAll dcs

/-- Assertion messages, structured by the f-string template that builds them
(`render` below produces the exact Python text). -/
inductive AssertMsg
  | specialized (name : String) (dim : ℕ) (size : ℤ)
  | dynamicRange (name : String) (dim : ℕ) (min_val max_val : ExtInt)
  | inputEquality (name : String) (dim : ℕ) (other_name : String) (other_dim : ℕ)
deriving DecidableEq, Repr

/-- How Python prints the bound values interpolated into messages. -/
def ExtInt.pyText : ExtInt → String
  | ⊤ => "inf"
  | (n : ℤ) => toString n

/-- The exact message strings assembled by the pass's f-strings. -/
def AssertMsg.render : AssertMsg → String
  | .specialized name dim size =>
    "Input " ++ name ++ "'s dimension #" ++ toString dim ++ " size is " ++
      "specialized at " ++ toString size
  | .dynamicRange name dim lo hi =>
    "Input " ++ name ++ "'s dimension #" ++ toString dim ++ " size is " ++
      "outside of specified dynamic range [" ++ lo.pyText ++ ", " ++ hi.pyText ++ "]"
  | .inputEquality name dim oname odim =>
    "Input " ++ name ++ "'s dimension #" ++ toString dim ++ " size is " ++
      "not equal to input " ++ oname ++ "'s dimension #" ++ toString odim

/-- An argument of an emitted graph node. -/
inductive PyVal
  | node (id : ℕ)
  | intLit (n : ℤ)
  | extLit (v : ExtInt)
  | msgVal (m : AssertMsg)
deriving DecidableEq, Repr

/-- The operator of an emitted graph node. -/
inductive NodeOp
  | placeholderOp (name : String)
  | symSize
  | eqOp
  | geOp
  | leOp
  | scalarTensor
  | assertAsyncMsg
  | otherOp (opName : String)
deriving DecidableEq, Repr

/-- One node of the graph under construction. -/
structure Node where
  op : NodeOp
  args : List PyVal
deriving DecidableEq, Repr

/-- The new graph built by the pass, in creation order; a node's id is its
index. -/
abbrev Trace := List Node

/-- `super().call_operator`: create one node and return its id. -/
def emit (tr : Trace) (op : NodeOp) (args : List PyVal) : Trace × ℕ :=
  (tr ++ [⟨op, args⟩], tr.length)

/-- `_insert_assert_async`: compare, lift to tensor, assert. -/
def _insert_assert_async (cmpOp : NodeOp) (l r : PyVal) (msg : AssertMsg)
    (tr : Trace) : Trace :=
  let (tr1, cmp) := emit tr cmpOp [l, r]
  let (tr2, cmpTensor) := emit tr1 .scalarTensor [.node cmp]
  (emit tr2 .assertAsyncMsg [.node cmpTensor, .msgVal msg]).1

/-- `_assert_range_constraint`: lower check only when `lower > low_threshold`,
upper check only when `upper < math.inf`. -/
def _assert_range_constraint (proxy : ℕ) (lower upper : ExtInt) (msg : AssertMsg)
    (low_threshold : ℤ) (tr : Trace) : Trace :=
  let tr1 :=
    if (low_threshold : ExtInt) < lower then
      _insert_assert_async .geOp (.node proxy) (.extLit lower) msg tr
    else tr
  if upper < ⊤ then
    _insert_assert_async .leOp (.node proxy) (.extLit upper) msg tr1
  else tr1

/-- `_assert_equality_constraint`. -/
def _assert_equality_constraint (proxy1 proxy2 : ℕ) (msg : AssertMsg) (tr : Trace) : Trace :=
  _insert_assert_async .eqOp (.node proxy1) (.node proxy2) msg tr

/-- `_insert_specialized_shapes_assert`: for each dim in `dims`, read the
runtime size and assert it equals the concrete example size.  `dims` is a
CPython set of small ints, which iterates in ascending order; call sites pass
the corresponding sorted list. -/
def _insert_specialized_shapes_assert (arg : ℕ) (dims : List ℕ) (name : String)
    (shape : List ℤ) (tr : Trace) : Trace :=
  match dims with
  | [] => tr
  | dim :: rest =>
    let size := shape.getD dim 0
    let msg := AssertMsg.specialized name dim size
    let (tr1, dimNode) := emit tr .symSize [.node arg, .intLit (dim : ℤ)]
    let (tr2, eq) := emit tr1 .eqOp [.node dimNode, .intLit size]
    let (tr3, tensorEq) := emit tr2 .scalarTensor [.node eq]
    let tr4 := (emit tr3 .assertAsyncMsg [.node tensorEq, .msgVal msg]).1
    _insert_specialized_shapes_assert arg rest name shape tr4

/-- An entry of `input_name_to_args`.  The example shape is recorded at
registration time; the Python code re-reads it from the (read-only)
`input_name_to_example_inputs` dict, which is equivalent. -/
structure RegisteredInput where
  name : String
  arg : ℕ
  shape : List ℤ
deriving DecidableEq, Repr

/-- `placeholder`: emit the placeholder node; register it only when the name
has an example input. -/
def placeholder (examples : List (String × List ℤ)) (name : String)
    (tr : Trace) (args : List RegisteredInput) : Trace × List RegisteredInput :=
  let (tr1, argId) := emit tr (.placeholderOp name) []
  match lookupName name examples with
  | none => (tr1, args)
  | some shape => (tr1, args ++ [⟨name, argId, shape⟩])

/-- A deferred equality constraint: the `(constraint, name, dim)` triple
pushed onto `equality_constraints`. -/
structure DeferredEq where
  constraint_dim : ℕ
  other_name : String
  other_dim : ℕ
  name : String
  dimNode : ℕ
deriving DecidableEq, Repr

/-- The per-constraint loop for one input: emit the `sym_size` read for the
constrained dim, then range-assert or defer, collecting the constrained
dims. -/
def processConstraints (name : String) (arg : ℕ) (cs : List ConstraintSpec)
    (tr : Trace) (eqs : List DeferredEq) (cdims : List ℕ) :
    Trace × List DeferredEq × List ℕ :=
  match cs with
  | [] => (tr, eqs, cdims)
  | c :: rest =>
    let (tr1, dimNode) := emit tr .symSize [.node arg, .intLit (c.constraint_dim : ℤ)]
    match c with
    | .range d lo hi =>
      let msg := AssertMsg.dynamicRange name d lo hi
      let tr2 := _assert_range_constraint dimNode lo hi msg 2 tr1
      processConstraints name arg rest tr2 eqs (cdims ++ [d])
    | .equality d oname odim =>
      processConstraints name arg rest tr1 (eqs ++ [⟨d, oname, odim, name, dimNode⟩])
        (cdims ++ [d])

/-- Result of the input loop of `postprocess_placeholders`: either the early
`return arg` taken when an input has no canonical constraints, or normal
completion with the deferred equality constraints. -/
inductive InputsResult
  | earlyReturn (tr : Trace)
  | completed (tr : Trace) (eqs : List DeferredEq)
deriving DecidableEq, Repr

/-- The input loop of `postprocess_placeholders`, over `input_name_to_args`
in insertion order. -/
def processInputs (ctable : List (String × List ConstraintSpec)) :
    List RegisteredInput → Trace → List DeferredEq → InputsResult
  | [], tr, eqs => .completed tr eqs
  | inp :: rest, tr, eqs =>
    let all_dims := List.range inp.shape.length
    match lookupName inp.name ctable with
    | none =>
      .earlyReturn (_insert_specialized_shapes_assert inp.arg all_dims inp.name inp.shape tr)
    | some cs =>
      let (tr1, eqs1, cdims) := processConstraints inp.name inp.arg cs tr eqs []
      let specialized_dims := all_dims.filter (fun d => decide (d ∉ cdims))
      let tr2 := _insert_specialized_shapes_assert inp.arg specialized_dims inp.name inp.shape tr1
      processInputs ctable rest tr2 eqs1

/-- `input_name_to_args[other_name]` (a `KeyError` when absent). -/
def lookupInput (name : String) : List RegisteredInput → Option ℕ
  | [] => none
  | inp :: rest => if name = inp.name then some inp.arg else lookupInput name rest

/-- The deferred-equality loop of `postprocess_placeholders`. -/
def processEqualities (args : List RegisteredInput) :
    List DeferredEq → Trace → Except (PyErr × Trace) Trace
  | [], tr => .ok tr
  | e :: rest, tr =>
    match lookupInput e.other_name args with
    | none => .error (.keyError e.other_name, tr)
    | some otherArg =>
      let (tr1, otherDimNode) := emit tr .symSize [.node otherArg, .intLit (e.other_dim : ℤ)]
      let msg := AssertMsg.inputEquality e.name e.constraint_dim e.other_name e.other_dim
      processEqualities args rest (_assert_equality_constraint e.dimNode otherDimNode msg tr1)

/-- `postprocess_placeholders`: the input loop, then (unless the early return
was taken) the deferred-equality loop. -/
def postprocess_placeholders (ctable : List (String × List ConstraintSpec))
    (args : List RegisteredInput) (tr : Trace) : Except (PyErr × Trace) Trace :=
  match processInputs ctable args tr [] with
  | .earlyReturn tr1 => .ok tr1
  | .completed tr1 eqs => processEqualities args eqs tr1

/-- A computed-value descriptor (`meta["val"]`): a symbolic scalar
(`SymInt`/`SymFloat`/`SymBool`, identified by its `node._expr`), a tensor
whose shape entries are descriptors themselves, or a plain concrete value. -/
inductive MetaVal
  | symScalar (expr : String)
  | tensor (shape : List MetaVal)
  | concrete (n : ℤ)

/-- One entry of `inline_constraints`: a value range with sympy bounds. -/
structure ValueRanges where
  lower : SymBound
  upper : SymBound
deriving DecidableEq, Repr

mutual

/-- The `add_assertions` traversal inside `call_operator`, returning the
collected message suffixes.  For a symbolic scalar whose expression has an
inline constraint, the code converts both bounds and then builds
`partial(self._assert_constraint, ...)`; the class defines no attribute
`_assert_constraint` (the method it defines is `_assert_range_constraint`),
so attribute lookup raises `AttributeError` before any callback is appended.
Consequently a successful traversal collects no callbacks, and its callback
list is not modelled (see `add_assertions_ok_empty`). -/
def add_assertions (ic : List (String × ValueRanges)) : MetaVal → Except PyErr (List String)
  | .symScalar e =>
    match lookupName e ic with
    | some c => do
      let _lo ← _convert_to_int c.lower
      let _hi ← _convert_to_int c.upper
      .error (.attributeError "_assert_constraint")
    | none => .ok []
  | .concrete _ => .ok []
  | .tensor shape => addTensorAssertions ic shape 0

/-- The `for i, sym in enumerate(val.shape)` loop of `add_assertions`: recurse
into each dimension descriptor and wrap each collected message with the
`".shape[i]"` piece. -/
def addTensorAssertions (ic : List (String × ValueRanges)) :
    List MetaVal → ℕ → Except PyErr (List String)
  | [], _ => .ok []
  | v :: rest, i => do
    let msgs ← add_assertions ic v
    let tail ← addTensorAssertions ic rest (i + 1)
    .ok (msgs.map (fun m => ".shape[" ++ toString i ++ "]" ++ m) ++ tail)

end

/-- A non-placeholder operation of the original graph: its name and its
`meta["val"]` descriptor, when present. -/
structure GraphOp where
  opName : String
  val : Option MetaVal

/-- `call_operator`: re-emit the operation, then traverse its descriptor.
Since a successful traversal collects no callbacks (the inline-constraint
branch raises before appending one), the firing loop emits nothing. -/
def call_operator (ic : List (String × ValueRanges)) (op : GraphOp)
    (tr : Trace) : Except (PyErr × Trace) Trace :=
  let (tr1, _ret) := emit tr (.otherOp op.opName) []
  match op.val with
  | none => .ok tr1
  | some v =>
    match add_assertions ic v with
    | .error e => .error (e, tr1)
    | .ok _msgs => .ok tr1

/-- The interpreter loop over the original graph's non-placeholder
operations, in topological order. -/
def processOperators (ic : List (String × ValueRanges)) :
    List GraphOp → Trace → Except (PyErr × Trace) Trace
  | [], tr => .ok tr
  | op :: rest, tr =>
    match call_operator ic op tr with
    | .error e => .error e
    | .ok tr1 => processOperators ic rest tr1

/-- The interpreter loop over the original graph's placeholders, in
declaration order. -/
def processPlaceholders (examples : List (String × List ℤ)) :
    List String → Trace → List RegisteredInput → Trace × List RegisteredInput
  | [], tr, args => (tr, args)
  | name :: rest, tr, args =>
    let (tr1, args1) := placeholder examples name tr args
    processPlaceholders examples rest tr1 args1

/-- The export metadata consumed in `call`. -/
structure ExportMeta where
  input_shape_constraints : List (String × ShapeConstraints)
  input_name_to_example_inputs : List (String × List ℤ)
  inline_constraints : List (String × ValueRanges)

/-- The original graph: placeholder names in declaration order, then the
remaining operations in topological order. -/
structure Graph where
  placeholders : List String
  operators : List GraphOp

/-- The whole pass (`call` plus the interpreter walk): normalize constraints
first — a failure there is raised before any node of the new graph exists —
then placeholders, then `postprocess_placeholders`, then the operators.
An error is paired with the new-graph nodes already created when it was
raised; the pass surfaces no graph in that case. -/
def runPass (m : ExportMeta) (g : Graph) : Except (PyErr × Trace) Trace :=
  match _process_shape_constraints m.input_shape_constraints with
  | .error e => .error (e, [])
  | .ok ctable =>
    let (tr1, args) := processPlaceholders m.input_name_to_example_inputs g.placeholders [] []
    match postprocess_placeholders ctable args tr1 with
    | .error e => .error e
    | .ok tr2 => processOperators m.inline_constraints g.operators tr2

/-! ### Observation helpers over traces -/

/-- Does this node argument carry a message satisfying `p`? -/
def PyVal.isMsgMatch (p : AssertMsg → Bool) : PyVal → Bool
  | .msgVal m => p m
  | _ => false

/-- Does this node carry (as an argument) a message satisfying `p`?  Only
assertion nodes carry messages. -/
def hasMsg (p : AssertMsg → Bool) (nd : Node) : Bool :=
  nd.args.any (PyVal.isMsgMatch p)

/-- Number of assertion nodes in `tr` whose message satisfies `p`. -/
def countMsgAsserts (p : AssertMsg → Bool) (tr : Trace) : ℕ :=
  tr.countP (hasMsg p)

/-- Specialization message for a given input name and dimension. -/
def isSpecMsgFor (name : String) (dim : ℕ) : AssertMsg → Bool
  | .specialized n d _ => n == name && d == dim
  | _ => false

/-- Any specialization message. -/
def isSpecMsg : AssertMsg → Bool
  | .specialized _ _ _ => true
  | _ => false

/-- Any dynamic-range message. -/
def isRangeMsg : AssertMsg → Bool
  | .dynamicRange _ _ _ _ => true
  | _ => false

/-- Any cross-input equality message. -/
def isEqMsg : AssertMsg → Bool
  | .inputEquality _ _ _ _ => true
  | _ => false

/-- Does the message mention the input `s` (as subject or as the other
input of an equality)? -/
def AssertMsg.mentions (s : String) : AssertMsg → Bool
  | .specialized n _ _ => n == s
  | .dynamicRange n _ _ _ => n == s
  | .inputEquality n _ o _ => n == s || o == s

/-- The trace part of an `InputsResult`. -/
def InputsResult.trace : InputsResult → Trace
  | .earlyReturn tr => tr
  | .completed tr _ => tr

/-! ### The head of a sorted list computes max / min -/

theorem foldl_max_hoist (ys : List ExtInt) :
    ∀ x y : ExtInt, max x (ys.foldl max y) = ys.foldl max (max x y) := by
  induction ys with
  | nil => intro x y; rfl
  | cons z zs ih =>
    intro x y
    simp only [List.foldl_cons]
    rw [ih, max_assoc]

theorem foldl_min_hoist (ys : List ExtInt) :
    ∀ x y : ExtInt, min x (ys.foldl min y) = ys.foldl min (min x y) := by
  induction ys with
  | nil => intro x y; rfl
  | cons z zs ih =>
    intro x y
    simp only [List.foldl_cons]
    rw [ih, min_assoc]

theorem headD_orderedInsert_desc (x h : ExtInt) (t : List ExtInt) :
    ((h :: t).orderedInsert (fun a b => b ≤ a) x).headD 0 = max x h := by
  by_cases hc : h ≤ x
  · simp [List.orderedInsert, hc, max_eq_left hc]
  · simp [List.orderedInsert, hc, max_eq_right (le_of_not_le hc)]

theorem headD_orderedInsert_asc (x h : ExtInt) (t : List ExtInt) :
    ((h :: t).orderedInsert (fun a b => a ≤ b) x).headD 0 = min x h := by
  by_cases hc : x ≤ h
  · simp [List.orderedInsert, hc, min_eq_left hc]
  · simp [List.orderedInsert, hc, min_eq_right (le_of_not_le hc)]

theorem sortedDescHead_cons (x : ExtInt) (l : List ExtInt) :
    sortedDescHead (x :: l) = l.foldl max x := by
  induction l generalizing x with
  | nil => rfl
  | cons y ys ih =>
    have hne : List.insertionSort (fun a b => b ≤ a) (y :: ys) ≠ [] := by
      intro hnil
      have hlen := List.length_insertionSort (fun a b => b ≤ a) (y :: ys)
      rw [hnil] at hlen
      simp at hlen
    obtain ⟨h, t, hht⟩ := List.exists_cons_of_ne_nil hne
    have hh : h = ys.foldl max y := by
      have hy := ih y
      rw [sortedDescHead, hht] at hy
      simpa using hy
    rw [sortedDescHead]
    show (List.orderedInsert _ x (List.insertionSort (fun a b => b ≤ a) (y :: ys))).headD 0 = _
    rw [hht, headD_orderedInsert_desc, hh, foldl_max_hoist, List.foldl_cons]

theorem sortedAscHead_cons (x : ExtInt) (l : List ExtInt) :
    sortedAscHead (x :: l) = l.foldl min x := by
  induction l generalizing x with
  | nil => rfl
  | cons y ys ih =>
    have hne : List.insertionSort (fun a b => a ≤ b) (y :: ys) ≠ [] := by
      intro hnil
      have hlen := List.length_insertionSort (fun a b => a ≤ b) (y :: ys)
      rw [hnil] at hlen
      simp at hlen
    obtain ⟨h, t, hht⟩ := List.exists_cons_of_ne_nil hne
    have hh : h = ys.foldl min y := by
      have hy := ih y
      rw [sortedAscHead, hht] at hy
      simpa using hy
    rw [sortedAscHead]
    show (List.orderedInsert _ x (List.insertionSort (fun a b => a ≤ b) (y :: ys))).headD 0 = _
    rw [hht, headD_orderedInsert_asc, hh, foldl_min_hoist, List.foldl_cons]

/-! ### Counting lemmas over the emission primitives -/

theorem countMsg_append (p : AssertMsg → Bool) (tr s : Trace) :
    countMsgAsserts p (tr ++ s) = countMsgAsserts p tr + countMsgAsserts p s := by
  simp [countMsgAsserts, List.countP_append]

theorem insert_assert_async_eq (c : NodeOp) (l r : PyVal) (msg : AssertMsg) (tr : Trace) :
    _insert_assert_async c l r msg tr =
      tr ++ [⟨c, [l, r]⟩, ⟨.scalarTensor, [.node tr.length]⟩,
             ⟨.assertAsyncMsg, [.node (tr.length + 1), .msgVal msg]⟩] := by
  simp [_insert_assert_async, emit]

theorem countMsg_insert_assert_async (p : AssertMsg → Bool) (c : NodeOp) (l r : PyVal)
    (msg : AssertMsg) (tr : Trace)
    (hl : PyVal.isMsgMatch p l = false) (hr : PyVal.isMsgMatch p r = false) :
    countMsgAsserts p (_insert_assert_async c l r msg tr) =
      countMsgAsserts p tr + (if p msg then 1 else 0) := by
  rw [insert_assert_async_eq, countMsg_append]
  have h1 : ∀ k, PyVal.isMsgMatch p (.node k) = false := fun k => rfl
  have h2 : PyVal.isMsgMatch p (.msgVal msg) = p msg := rfl
  simp [countMsgAsserts, List.countP_cons, hasMsg, hl, hr, h1, h2]

theorem countMsg_assert_range (p : AssertMsg → Bool) (proxy : ℕ) (lo hi : ExtInt)
    (msg : AssertMsg) (th : ℤ) (tr : Trace) :
    countMsgAsserts p (_assert_range_constraint proxy lo hi msg th tr) =
      countMsgAsserts p tr +
        ((if (th : ExtInt) < lo then if p msg then 1 else 0 else 0) +
         (if hi < ⊤ then if p msg then 1 else 0 else 0)) := by
  unfold _assert_range_constraint
  by_cases h1 : (th : ExtInt) < lo <;> by_cases h2 : hi < ⊤ <;>
    simp [h1, h2, countMsg_insert_assert_async, PyVal.isMsgMatch] <;> omega

theorem countMsg_assert_equality (p : AssertMsg → Bool) (p1 p2 : ℕ) (msg : AssertMsg)
    (tr : Trace) :
    countMsgAsserts p (_assert_equality_constraint p1 p2 msg tr) =
      countMsgAsserts p tr + (if p msg then 1 else 0) := by
  unfold _assert_equality_constraint
  rw [countMsg_insert_assert_async] <;> rfl

theorem countMsg_spec_chain (p : AssertMsg → Bool) (arg : ℕ) (dims : List ℕ)
    (name : String) (shape : List ℤ) (tr : Trace) :
    countMsgAsserts p (_insert_specialized_shapes_assert arg dims name shape tr) =
      countMsgAsserts p tr +
        dims.countP (fun d => p (.specialized name d (shape.getD d 0))) := by
  induction dims generalizing tr with
  | nil => simp [_insert_specialized_shapes_assert]
  | cons d rest ih =>
    show countMsgAsserts p (_insert_specialized_shapes_assert arg rest name shape _) = _
    rw [ih]
    simp [countMsgAsserts, List.countP_cons, hasMsg, PyVal.isMsgMatch, emit,
      List.countP_append]
    omega

theorem countMsg_processConstraints (p : AssertMsg → Bool)
    (hp : ∀ n d lo hi, p (.dynamicRange n d lo hi) = false)
    (name : String) (arg : ℕ) (cs : List ConstraintSpec) :
    ∀ (tr : Trace) (eqs : List DeferredEq) (cdims : List ℕ),
    countMsgAsserts p (processConstraints name arg cs tr eqs cdims).1 =
      countMsgAsserts p tr := by
  induction cs with
  | nil => intro tr eqs cdims; rfl
  | cons c rest ih =>
    intro tr eqs cdims
    cases c with
    | range d lo hi =>
      show countMsgAsserts p (processConstraints name arg rest _ _ _).1 = _
      rw [ih, countMsg_assert_range]
      simp [hp, countMsg_append, countMsgAsserts, List.countP_cons, hasMsg,
        PyVal.isMsgMatch, emit]
    | equality d oname odim =>
      show countMsgAsserts p (processConstraints name arg rest _ _ _).1 = _
      rw [ih]
      simp [countMsg_append, countMsgAsserts, List.countP_cons, hasMsg,
        PyVal.isMsgMatch, emit]

theorem processConstraints_cdims (name : String) (arg : ℕ) (cs : List ConstraintSpec) :
    ∀ (tr : Trace) (eqs : List DeferredEq) (cdims : List ℕ),
    (processConstraints name arg cs tr eqs cdims).2.2 =
      cdims ++ cs.map ConstraintSpec.constraint_dim := by
  induction cs with
  | nil => intro tr eqs cdims; simp [processConstraints]
  | cons c rest ih =>
    intro tr eqs cdims
    cases c with
    | range d lo hi =>
      show (processConstraints name arg rest _ _ _).2.2 = _
      rw [ih]
      simp [ConstraintSpec.constraint_dim]
    | equality d oname odim =>
      show (processConstraints name arg rest _ _ _).2.2 = _
      rw [ih]
      simp [ConstraintSpec.constraint_dim]

/-! ### Prefix lemmas: every emission step only appends to the trace -/

theorem emit_extends (tr : Trace) (op : NodeOp) (args : List PyVal) : tr <+: (emit tr op args).1 :=
  List.prefix_append _ _

theorem insert_assert_async_extends (c : NodeOp) (l r : PyVal) (msg : AssertMsg) (tr : Trace) :
    tr <+: _insert_assert_async c l r msg tr := by
  rw [insert_assert_async_eq]
  exact List.prefix_append _ _

theorem assert_range_extends (proxy : ℕ) (lo hi : ExtInt) (msg : AssertMsg) (th : ℤ)
    (tr : Trace) : tr <+: _assert_range_constraint proxy lo hi msg th tr := by
  unfold _assert_range_constraint
  by_cases h1 : ((th : ExtInt) < lo) <;> by_cases h2 : (hi < ⊤) <;>
    simp only [h1, h2, if_true, if_false] <;>
    first
      | exact (insert_assert_async_extends _ _ _ _ _).trans (insert_assert_async_extends _ _ _ _ _)
      | exact insert_assert_async_extends _ _ _ _ _
      | exact List.prefix_rfl

theorem spec_chain_extends (arg : ℕ) (dims : List ℕ) (name : String) (shape : List ℤ) :
    ∀ tr : Trace, tr <+: _insert_specialized_shapes_assert arg dims name shape tr := by
  induction dims with
  | nil => intro tr; exact List.prefix_rfl
  | cons d rest ih =>
    intro tr
    show tr <+: _insert_specialized_shapes_assert arg rest name shape _
    refine List.IsPrefix.trans ?_ (ih _)
    exact (((emit_extends tr _ _).trans (emit_extends _ _ _)).trans (emit_extends _ _ _)).trans
      (emit_extends _ _ _)

theorem processConstraints_extends (name : String) (arg : ℕ) (cs : List ConstraintSpec) :
    ∀ (tr : Trace) (eqs : List DeferredEq) (cdims : List ℕ),
    tr <+: (processConstraints name arg cs tr eqs cdims).1 := by
  induction cs with
  | nil => intro tr eqs cdims; exact List.prefix_rfl
  | cons c rest ih =>
    intro tr eqs cdims
    cases c with
    | range d lo hi =>
      show tr <+: (processConstraints name arg rest _ _ _).1
      exact ((emit_extends tr _ _).trans (assert_range_extends _ lo hi _ 2 _)).trans (ih _ _ _)
    | equality d oname odim =>
      show tr <+: (processConstraints name arg rest _ _ _).1
      exact (emit_extends tr _ _).trans (ih _ _ _)

theorem processInputs_extends (ctable : List (String × List ConstraintSpec))
    (args : List RegisteredInput) :
    ∀ (tr : Trace) (eqs : List DeferredEq),
    tr <+: (processInputs ctable args tr eqs).trace := by
  induction args with
  | nil => intro tr eqs; exact List.prefix_rfl
  | cons inp rest ih =>
    intro tr eqs
    cases hl : lookupName inp.name ctable with
    | none =>
      simp only [processInputs, hl, InputsResult.trace]
      exact spec_chain_extends _ _ _ _ tr
    | some cs =>
      simp only [processInputs, hl]
      exact ((processConstraints_extends inp.name inp.arg cs tr eqs []).trans
        (spec_chain_extends _ _ _ _ _)).trans (ih _ _)

theorem processEqualities_extends (args : List RegisteredInput) (eqs : List DeferredEq) :
    ∀ (tr tr' : Trace), processEqualities args eqs tr = .ok tr' → tr <+: tr' := by
  induction eqs with
  | nil =>
    intro tr tr' h
    simp only [processEqualities] at h
    cases h
    exact List.prefix_rfl
  | cons e rest ih =>
    intro tr tr' h
    simp only [processEqualities] at h
    cases hl : lookupInput e.other_name args with
    | none => rw [hl] at h; cases h
    | some otherArg =>
      rw [hl] at h
      exact ((emit_extends tr _ _).trans (insert_assert_async_extends _ _ _ _ _)).trans (ih _ _ h)

/-! ### Count lemmas for the input and equality phases -/

theorem countMsg_processInputs (p : AssertMsg → Bool)
    (hp1 : ∀ n d s, p (.specialized n d s) = false)
    (hp2 : ∀ n d lo hi, p (.dynamicRange n d lo hi) = false)
    (ctable : List (String × List ConstraintSpec)) (args : List RegisteredInput) :
    ∀ (tr : Trace) (eqs : List DeferredEq),
    countMsgAsserts p (processInputs ctable args tr eqs).trace = countMsgAsserts p tr := by
  induction args with
  | nil => intro tr eqs; rfl
  | cons inp rest ih =>
    intro tr eqs
    have hchain : ∀ (a : ℕ) (dims : List ℕ) (nm : String) (sh : List ℤ) (t : Trace),
        countMsgAsserts p (_insert_specialized_shapes_assert a dims nm sh t) =
          countMsgAsserts p t := by
      intro a dims nm sh t
      rw [countMsg_spec_chain]
      simp [hp1]
    cases hl : lookupName inp.name ctable with
    | none =>
      simp only [processInputs, hl, InputsResult.trace]
      exact hchain _ _ _ _ _
    | some cs =>
      simp only [processInputs, hl]
      rw [ih, hchain, countMsg_processConstraints p hp2]

theorem countMsg_processEqualities (args : List RegisteredInput) (eqs : List DeferredEq) :
    ∀ (tr tr' : Trace), processEqualities args eqs tr = .ok tr' →
    countMsgAsserts isEqMsg tr' = countMsgAsserts isEqMsg tr + eqs.length ∧
    countMsgAsserts isSpecMsg tr' = countMsgAsserts isSpecMsg tr ∧
    countMsgAsserts isRangeMsg tr' = countMsgAsserts isRangeMsg tr := by
  induction eqs with
  | nil =>
    intro tr tr' h
    simp only [processEqualities] at h
    cases h
    exact ⟨rfl, rfl, rfl⟩
  | cons e rest ih =>
    intro tr tr' h
    simp only [processEqualities] at h
    cases hl : lookupInput e.other_name args with
    | none => rw [hl] at h; cases h
    | some otherArg =>
      rw [hl] at h
      obtain ⟨he, hs, hr⟩ := ih _ _ h
      rw [countMsg_assert_equality] at he hs hr
      refine ⟨?_, ?_, ?_⟩
      · rw [he]
        simp [countMsg_append, countMsgAsserts, List.countP_cons, hasMsg, PyVal.isMsgMatch,
          emit, isEqMsg, List.length_cons]
        omega
      · rw [hs]
        simp [countMsg_append, countMsgAsserts, List.countP_cons, hasMsg, PyVal.isMsgMatch,
          emit, isSpecMsg]
      · rw [hr]
        simp [countMsg_append, countMsgAsserts, List.countP_cons, hasMsg, PyVal.isMsgMatch,
          emit, isRangeMsg]

theorem processInputs_completed (ctable : List (String × List ConstraintSpec))
    (args : List RegisteredInput)
    (h : ∀ inp ∈ args, (lookupName inp.name ctable).isSome) :
    ∀ (tr : Trace) (eqs : List DeferredEq),
    ∃ tr' eqs', processInputs ctable args tr eqs = .completed tr' eqs' := by
  induction args with
  | nil => intro tr eqs; exact ⟨tr, eqs, rfl⟩
  | cons inp rest ih =>
    intro tr eqs
    cases hl : lookupName inp.name ctable with
    | none =>
      have := h inp (by simp)
      rw [hl] at this
      cases this
    | some cs =>
      obtain ⟨tr', eqs', hrec⟩ := ih (fun i hi => h i (List.mem_cons_of_mem _ hi)) _ _
      exact ⟨tr', eqs', by simp only [processInputs, hl]; exact hrec⟩

/-! ### Further shared helpers -/

/-- A normalization failure in `call` happens before the interpreter walk, so
the error is surfaced with an empty new-graph trace. -/
theorem runPass_error_of_process_error (m : ExportMeta) (g : Graph) (e : PyErr)
    (h : _process_shape_constraints m.input_shape_constraints = .error e) :
    runPass m g = .error (e, []) := by
  unfold runPass
  rw [h]

theorem countP_beq_of_nodup {l : List ℕ} (d : ℕ) (hn : l.Nodup) :
    l.countP (fun x => x == d) = if d ∈ l then 1 else 0 := by
  by_cases hm : d ∈ l
  · rw [if_pos hm]
    exact List.count_eq_one_of_mem hn hm
  · rw [if_neg hm]
    exact List.count_eq_zero_of_not_mem (a := d) hm

/-- A successful operator phase appends only re-emitted operation nodes: no
assertion of any kind is synthesized (the inline-constraint branch raises
before a callback could be registered, so a successful traversal collects
nothing to fire). -/
theorem processOperators_append (ic : List (String × ValueRanges)) (ops : List GraphOp) :
    ∀ (tr trF : Trace), processOperators ic ops tr = .ok trF →
    ∃ sO : Trace, trF = tr ++ sO ∧ ∀ p : AssertMsg → Bool, countMsgAsserts p sO = 0 := by
  induction ops with
  | nil =>
    intro tr trF h
    simp only [processOperators] at h
    cases h
    exact ⟨[], by simp, fun p => rfl⟩
  | cons op rest ih =>
    intro tr trF h
    cases hv : op.val with
    | none =>
      simp only [processOperators, call_operator, hv] at h
      obtain ⟨sO, hsO, hc⟩ := ih _ _ h
      refine ⟨⟨.otherOp op.opName, []⟩ :: sO, ?_, ?_⟩
      · rw [hsO]; simp [emit]
      · intro p
        simpa [countMsgAsserts, List.countP_cons, hasMsg] using hc p
    | some v =>
      cases ha : add_assertions ic v with
      | error e =>
        simp only [processOperators, call_operator, hv, ha] at h
        exact Except.noConfusion h
      | ok msgs =>
        simp only [processOperators, call_operator, hv, ha] at h
        obtain ⟨sO, hsO, hc⟩ := ih _ _ h
        refine ⟨⟨.otherOp op.opName, []⟩ :: sO, ?_, ?_⟩
        · rw [hsO]; simp [emit]
        · intro p
          simpa [countMsgAsserts, List.countP_cons, hasMsg] using hc p

/-! ### Claim C1 -/

/-- C1: for an operation whose composite result has dimension 2 equal to a
symbol carrying the inline constraint `[1, 10]`, the claim says exactly one
size-read plus lower/upper assertion chain is emitted with a
`.shape[2] ... [1, 10]` message.  The code instead raises `AttributeError`:
the callback it builds refers to `self._assert_constraint`, an attribute the
class never defines (the defined method is `_assert_range_constraint`), so
after the bounds convert successfully the attribute lookup fails and no
assertion chain is ever emitted. -/
theorem inline_constraint_chain_raises_attribute_error :
    runPass ⟨[], [], [("s1", ⟨.intVal 1, .intVal 10⟩)]⟩
        ⟨[], [⟨"f", some (.tensor [.concrete 3, .concrete 4, .symScalar "s1"])⟩]⟩ =
      .error (.attributeError "_assert_constraint", [⟨.otherOp "f", []⟩]) := rfl

/-! ### Claim C2 -/

/-- C2: for every input and dimension with at least one declared range tuple,
the merged `RangeConstraintSpec` has `min_val` equal to the maximum of all
declared lower bounds and `max_val` equal to the minimum of all declared
upper bounds; an inverted merge is an `AssertionError`.  Merging
`(dim=0, min=2, max=8)` with `(dim=0, min=5, max=10)` yields `min=5, max=8`,
and a normalization failure aborts the pass with the new graph still empty. -/
theorem range_merge_is_tightest_intersection :
    (∀ (dim : ℕ) (p : ExtInt × ExtInt) (ps : List (ExtInt × ExtInt)),
      mergeRangeGroup dim (p :: ps) =
        (if (ps.map Prod.fst).foldl max p.1 ≤ (ps.map Prod.snd).foldl min p.2 then
          .ok (.range dim ((ps.map Prod.fst).foldl max p.1)
            ((ps.map Prod.snd).foldl min p.2))
        else .error .assertionError))
    ∧ _process_shape_constraints
        [("x", ⟨[(0, .intVal 2, .intVal 8), (0, .intVal 5, .intVal 10)], []⟩)] =
        .ok [("x", [.range 0 5 8])]
    ∧ (∀ (m : ExportMeta) (g : Graph) (e : PyErr),
        _process_shape_constraints m.input_shape_constraints = .error e →
        runPass m g = .error (e, [])) := by
  refine ⟨?_, rfl, runPass_error_of_process_error⟩
  intro dim p ps
  unfold mergeRangeGroup
  simp only [List.map_cons, sortedDescHead_cons, sortedAscHead_cons]

/-- Witness for C2: a contradictory pair of range tuples aborts the pass with
an `AssertionError` and an empty new-graph trace. -/
theorem range_merge_is_tightest_intersection_witness :
    runPass ⟨[("x", ⟨[(0, .intVal 5, .intVal 8), (0, .intVal 9, .intVal 10)], []⟩)], [], []⟩
        ⟨[], []⟩ = .error (.assertionError, []) :=
  range_merge_is_tightest_intersection.2.2 _ _ _ (by rfl)

/-! ### Claim C5 -/

/-- C5: through the per-dimension input branch (which passes
`low_threshold=2`), a lower-bound comparison is emitted iff `min_val > 2`,
and an upper-bound comparison is emitted iff `max_val` is finite; the second
conjunct shows the input branch really invokes `_assert_range_constraint`
with threshold `2` after the `sym_size` read. -/
theorem range_assert_lower_threshold_and_finite_upper :
    (∀ (proxy : ℕ) (lo hi : ExtInt) (msg : AssertMsg) (tr : Trace),
      ((_assert_range_constraint proxy lo hi msg 2 tr).countP
          (fun nd => nd.op == NodeOp.geOp) =
        tr.countP (fun nd => nd.op == NodeOp.geOp) +
          (if (((2 : ℤ) : ExtInt) < lo) then 1 else 0))
      ∧ ((_assert_range_constraint proxy lo hi msg 2 tr).countP
          (fun nd => nd.op == NodeOp.leOp) =
        tr.countP (fun nd => nd.op == NodeOp.leOp) + (if hi < ⊤ then 1 else 0)))
    ∧ (∀ (name : String) (arg d : ℕ) (lo hi : ExtInt) (rest : List ConstraintSpec)
        (tr : Trace) (eqs : List DeferredEq) (cdims : List ℕ),
        processConstraints name arg (.range d lo hi :: rest) tr eqs cdims =
          processConstraints name arg rest
            (_assert_range_constraint tr.length lo hi (.dynamicRange name d lo hi) 2
              (tr ++ [⟨.symSize, [.node arg, .intLit d]⟩]))
            eqs (cdims ++ [d])) := by
  refine ⟨?_, fun name arg d lo hi rest tr eqs cdims => rfl⟩
  intro proxy lo hi msg tr
  constructor <;>
    · unfold _assert_range_constraint
      split_ifs <;> simp [insert_assert_async_eq, List.countP_append, List.countP_cons]
      all_goals omega

/-! ### Claim C7 -/

/-- C7: bound conversion accepts exactly a finite integer or positive
infinity and raises the fatal non-integer-constraint-expression error on any
other symbolic form, both for declared input range bounds (via
`_process_shape_constraints`) and for inline-constraint bounds (via the
traversal in `call_operator`). -/
theorem convert_to_int_two_forms_only :
    (∀ v : SymBound, (∃ r, _convert_to_int v = .ok r) ↔ (v = .oo ∨ ∃ n, v = .intVal n))
    ∧ _convert_to_int .oo = .ok ⊤
    ∧ (∀ n : ℤ, _convert_to_int (.intVal n) = .ok (n : ℤ))
    ∧ (∀ s : String, _convert_to_int (.symbolic s) =
        .error (.runtimeError "Export constraints cannot be non-integer expressions"))
    ∧ _process_shape_constraints [("x", ⟨[(0, .symbolic "s0", .intVal 5)], []⟩)] =
        .error (.runtimeError "Export constraints cannot be non-integer expressions")
    ∧ add_assertions [("e0", ⟨.symbolic "w", .intVal 5⟩)] (.symScalar "e0") =
        .error (.runtimeError "Export constraints cannot be non-integer expressions") := by
  refine ⟨?_, rfl, fun n => rfl, fun s => rfl, rfl, rfl⟩
  intro v
  cases v with
  | oo => simp [_convert_to_int]
  | intVal n => simp [_convert_to_int]
  | symbolic s => simp [_convert_to_int]

/-! ### Claim C3 -/

/-- C3: when the input loop meets an input with no entry in the canonical
constraint table, it inserts exactly one specialization assertion per
dimension of that input's example shape and then returns, processing none of
the remaining inputs (the result does not mention `rest`).  Scenario A: an
unconstrained input of example shape `(3, 4)` yields exactly the asserts
`size(x,0)==3` and `size(x,1)==4`. -/
theorem unconstrained_input_specializes_all_dims_then_stops :
    (∀ (ctable : List (String × List ConstraintSpec)) (name : String) (arg : ℕ)
       (shape : List ℤ) (rest : List RegisteredInput) (tr : Trace) (eqs : List DeferredEq),
      lookupName name ctable = none →
      processInputs ctable (⟨name, arg, shape⟩ :: rest) tr eqs =
        .earlyReturn
          (_insert_specialized_shapes_assert arg (List.range shape.length) name shape tr)
      ∧ (∀ d : ℕ,
          countMsgAsserts (isSpecMsgFor name d)
            (_insert_specialized_shapes_assert arg (List.range shape.length) name shape tr) =
          countMsgAsserts (isSpecMsgFor name d) tr + (if d < shape.length then 1 else 0)))
    ∧ runPass ⟨[], [("x", [3, 4])], []⟩ ⟨["x"], []⟩ = .ok
        [⟨.placeholderOp "x", []⟩,
         ⟨.symSize, [.node 0, .intLit 0]⟩, ⟨.eqOp, [.node 1, .intLit 3]⟩,
         ⟨.scalarTensor, [.node 2]⟩,
         ⟨.assertAsyncMsg, [.node 3, .msgVal (.specialized "x" 0 3)]⟩,
         ⟨.symSize, [.node 0, .intLit 1]⟩, ⟨.eqOp, [.node 5, .intLit 4]⟩,
         ⟨.scalarTensor, [.node 6]⟩,
         ⟨.assertAsyncMsg, [.node 7, .msgVal (.specialized "x" 1 4)]⟩] := by
  refine ⟨?_, rfl⟩
  intro ctable name arg shape rest tr eqs hl
  refine ⟨by simp [processInputs, hl], ?_⟩
  intro d
  rw [countMsg_spec_chain]
  congr 1
  have hcong : (List.range shape.length).countP
      (fun x => isSpecMsgFor name d (.specialized name x (shape.getD x 0))) =
      (List.range shape.length).countP (fun x => x == d) :=
    List.countP_congr (fun x _ => by simp [isSpecMsgFor])
  rw [hcong, countP_beq_of_nodup d (List.nodup_range _)]
  simp [List.mem_range]

/-- Witness for C3, at Scenario A's data followed by a second registered
input that the early return skips. -/
theorem unconstrained_input_specializes_all_dims_then_stops_witness :
    (processInputs [] [⟨"x", 0, [3, 4]⟩, ⟨"y", 1, [5]⟩] [⟨.placeholderOp "x", []⟩] [] =
      .earlyReturn
        (_insert_specialized_shapes_assert 0 (List.range 2) "x" [3, 4]
          [⟨.placeholderOp "x", []⟩])
    ∧ (∀ d : ℕ,
        countMsgAsserts (isSpecMsgFor "x" d)
          (_insert_specialized_shapes_assert 0 (List.range 2) "x" [3, 4]
            [⟨.placeholderOp "x", []⟩]) =
        countMsgAsserts (isSpecMsgFor "x" d) [⟨.placeholderOp "x", []⟩] +
          (if d < 2 then 1 else 0))) :=
  unconstrained_input_specializes_all_dims_then_stops.1
    [] "x" 0 [3, 4] [⟨"y", 1, [5]⟩] [⟨.placeholderOp "x", []⟩] [] rfl

/-! ### Claim C4 -/

/-- C4: for an input that has a canonical constraint entry, each dimension of
its example shape receives exactly one specialization assertion if no range
or equality constraint names that dimension, and none if one does. -/
theorem uncovered_dims_get_one_specialization_each :
    ∀ (ctable : List (String × List ConstraintSpec)) (name : String) (arg : ℕ)
      (shape : List ℤ) (cs : List ConstraintSpec) (tr : Trace) (d : ℕ),
      lookupName name ctable = some cs → d < shape.length →
      ∃ (trOut : Trace) (eqs : List DeferredEq),
        processInputs ctable [⟨name, arg, shape⟩] tr [] = .completed trOut eqs ∧
        countMsgAsserts (isSpecMsgFor name d) trOut =
          countMsgAsserts (isSpecMsgFor name d) tr +
            (if d ∈ cs.map ConstraintSpec.constraint_dim then 0 else 1) := by
  intro ctable name arg shape cs tr d hl hd
  refine ⟨_insert_specialized_shapes_assert arg
      ((List.range shape.length).filter
        (fun x => decide (x ∉ (processConstraints name arg cs tr [] []).2.2)))
      name shape (processConstraints name arg cs tr [] []).1,
    (processConstraints name arg cs tr [] []).2.1, ?_, ?_⟩
  · simp only [processInputs, hl]
  rw [countMsg_spec_chain,
    countMsg_processConstraints (isSpecMsgFor name d) (fun _ _ _ _ => rfl)]
  congr 1
  have hcong : ∀ l : List ℕ, l.countP
      (fun x => isSpecMsgFor name d (.specialized name x (shape.getD x 0))) =
      l.countP (fun x => x == d) :=
    fun l => List.countP_congr (fun x _ => by simp [isSpecMsgFor])
  rw [hcong, countP_beq_of_nodup d ((List.nodup_range _).filter _)]
  simp only [processConstraints_cdims, List.nil_append]
  by_cases hm : d ∈ cs.map ConstraintSpec.constraint_dim <;>
    simp [List.mem_filter, List.mem_range, hd, hm]
  · exact List.mem_map.mp hm
  · intro x hx hcd
    exact hm (List.mem_map.mpr ⟨x, hx, hcd⟩)

/-- Witness for C4: with a range constraint on dimension 1 of a 2-d input,
dimension 0 gets one specialization assert and dimension 1 gets none. -/
theorem uncovered_dims_get_one_specialization_each_witness :
    (∃ (trOut : Trace) (eqs : List DeferredEq),
      processInputs [("x", [.range 1 ((5 : ℤ) : ExtInt) ⊤])] [⟨"x", 0, [7, 9]⟩]
          [⟨.placeholderOp "x", []⟩] [] = .completed trOut eqs ∧
      countMsgAsserts (isSpecMsgFor "x" 0) trOut =
        countMsgAsserts (isSpecMsgFor "x" 0) [⟨.placeholderOp "x", []⟩] +
          (if 0 ∈ [ConstraintSpec.range 1 ((5 : ℤ) : ExtInt) ⊤].map
              ConstraintSpec.constraint_dim then 0 else 1))
    ∧ (∃ (trOut : Trace) (eqs : List DeferredEq),
      processInputs [("x", [.range 1 ((5 : ℤ) : ExtInt) ⊤])] [⟨"x", 0, [7, 9]⟩]
          [⟨.placeholderOp "x", []⟩] [] = .completed trOut eqs ∧
      countMsgAsserts (isSpecMsgFor "x" 1) trOut =
        countMsgAsserts (isSpecMsgFor "x" 1) [⟨.placeholderOp "x", []⟩] +
          (if 1 ∈ [ConstraintSpec.range 1 ((5 : ℤ) : ExtInt) ⊤].map
              ConstraintSpec.constraint_dim then 0 else 1)) :=
  ⟨uncovered_dims_get_one_specialization_each _ "x" 0 [7, 9] _ _ 0 rfl (by decide),
   uncovered_dims_get_one_specialization_each _ "x" 0 [7, 9] _ _ 1 rfl (by decide)⟩

/-! ### Claim C9 -/

/-- C9: when the input loop returns early (an input with no canonical
constraints), `postprocess_placeholders` returns that trace directly; the
deferred-equality loop never runs, and the returned trace holds no more
cross-input equality assertions than it started with — equality constraints
already collected from earlier inputs are dropped. -/
theorem early_return_skips_equality_resolution :
    ∀ (ctable : List (String × List ConstraintSpec)) (args : List RegisteredInput)
      (tr tr' : Trace),
      processInputs ctable args tr [] = .earlyReturn tr' →
      postprocess_placeholders ctable args tr = .ok tr' ∧
      countMsgAsserts isEqMsg tr' = countMsgAsserts isEqMsg tr := by
  intro ctable args tr tr' h
  constructor
  · unfold postprocess_placeholders
    rw [h]
  · have hc := countMsg_processInputs isEqMsg (fun _ _ _ => rfl) (fun _ _ _ _ => rfl)
      ctable args tr []
    rw [h] at hc
    exact hc

/-- Witness for C9: input `x` carries an equality constraint to `y` (so one
deferred equality was collected), then the unconstrained `y` triggers the
early return: the final trace holds zero equality assertions. -/
theorem early_return_skips_equality_resolution_witness :
    postprocess_placeholders [("x", [.equality 0 "y" 0])]
        [⟨"x", 0, [3]⟩, ⟨"y", 1, [3]⟩]
        [⟨.placeholderOp "x", []⟩, ⟨.placeholderOp "y", []⟩] = .ok
      [⟨.placeholderOp "x", []⟩, ⟨.placeholderOp "y", []⟩,
       ⟨.symSize, [.node 0, .intLit 0]⟩, ⟨.symSize, [.node 1, .intLit 0]⟩,
       ⟨.eqOp, [.node 3, .intLit 3]⟩, ⟨.scalarTensor, [.node 4]⟩,
       ⟨.assertAsyncMsg, [.node 5, .msgVal (.specialized "y" 0 3)]⟩]
    ∧ countMsgAsserts isEqMsg
        [⟨.placeholderOp "x", []⟩, ⟨.placeholderOp "y", []⟩,
         ⟨.symSize, [.node 0, .intLit 0]⟩, ⟨.symSize, [.node 1, .intLit 0]⟩,
         ⟨.eqOp, [.node 3, .intLit 3]⟩, ⟨.scalarTensor, [.node 4]⟩,
         ⟨.assertAsyncMsg, [.node 5, .msgVal (.specialized "y" 0 3)]⟩] =
      countMsgAsserts isEqMsg [⟨.placeholderOp "x", []⟩, ⟨.placeholderOp "y", []⟩] :=
  early_return_skips_equality_resolution _ _ _ _ rfl

/-! ### Claim C10 -/

/-- C10: a placeholder whose name is absent from the example-input table is
re-emitted unchanged and registered nowhere; no assertion of any kind ever
mentions it (second conjunct: a full run where `z` is unregistered emits no
assertion message naming `z`), and an equality constraint that refers to it
fails at resolution time with a `KeyError` (third conjunct). -/
theorem unregistered_placeholder_invisible :
    (∀ (examples : List (String × List ℤ)) (name : String) (tr : Trace)
       (args : List RegisteredInput),
      lookupName name examples = none →
      placeholder examples name tr args = (tr ++ [⟨.placeholderOp name, []⟩], args))
    ∧ (∃ tr : Trace,
        runPass ⟨[("x", ⟨[(0, .intVal 3, .intVal 5)], []⟩)], [("x", [4])], []⟩
          ⟨["z", "x"], []⟩ = .ok tr ∧
        countMsgAsserts (AssertMsg.mentions "z") tr = 0)
    ∧ runPass ⟨[("x", ⟨[], [(0, "z", 0)]⟩)], [("x", [3])], []⟩ ⟨["x", "z"], []⟩ =
        .error (.keyError "z",
          [⟨.placeholderOp "x", []⟩, ⟨.placeholderOp "z", []⟩,
           ⟨.symSize, [.node 0, .intLit 0]⟩]) := by
  refine ⟨?_, ⟨_, rfl, rfl⟩, rfl⟩
  intro examples name tr args hl
  simp [placeholder, emit, hl]

/-- Witness for C10: a placeholder named `z` with no example input emits its
node and registers nothing. -/
theorem unregistered_placeholder_invisible_witness :
    placeholder [("x", [3])] "z" [] [] = ([⟨.placeholderOp "z", []⟩], []) :=
  unregistered_placeholder_invisible.1 [("x", [3])] "z" [] [] rfl

/-! ### Claim C6 -/

/-- C6 counterexample: Scenario C taken as stated — the only declared
constraint is the equality attached to `x`, so `y` gets no entry in the
canonical table; processing `y` takes the early return before the
deferred-equality loop, and the run emits zero assertions comparing
`size(x,0)` to `size(y,0)`, not exactly one. -/
theorem equality_assert_missing_when_other_input_unconstrained :
    runPass ⟨[("x", ⟨[], [(0, "y", 0)]⟩)], [("x", [3]), ("y", [3])], []⟩ ⟨["x", "y"], []⟩ =
      .ok
        [⟨.placeholderOp "x", []⟩, ⟨.placeholderOp "y", []⟩,
         ⟨.symSize, [.node 0, .intLit 0]⟩, ⟨.symSize, [.node 1, .intLit 0]⟩,
         ⟨.eqOp, [.node 3, .intLit 3]⟩, ⟨.scalarTensor, [.node 4]⟩,
         ⟨.assertAsyncMsg, [.node 5, .msgVal (.specialized "y" 0 3)]⟩]
    ∧ countMsgAsserts isEqMsg
        [⟨.placeholderOp "x", []⟩, ⟨.placeholderOp "y", []⟩,
         ⟨.symSize, [.node 0, .intLit 0]⟩, ⟨.symSize, [.node 1, .intLit 0]⟩,
         ⟨.eqOp, [.node 3, .intLit 3]⟩, ⟨.scalarTensor, [.node 4]⟩,
         ⟨.assertAsyncMsg, [.node 5, .msgVal (.specialized "y" 0 3)]⟩] = 0 :=
  ⟨rfl, rfl⟩

/-- C6 (amended): provided every registered input has an entry in the
canonical constraint table (otherwise the early return suppresses the
equality phase entirely), the phases emit in order: the input loop appends a
segment with no cross-input equality assertion, the deferred-equality loop
then appends a segment holding exactly one equality assertion per deferred
constraint and no specialization or range assertion, and a successful
operator phase appends only re-emitted operation nodes with no assertions at
all.  For Scenario C with `y` also range-constrained, the full run emits
exactly one equality assertion, placed in the final equality-chain segment
after every input-level assertion. -/
theorem phase_order_input_then_equality_then_operators :
    (∀ (ctable : List (String × List ConstraintSpec)) (args : List RegisteredInput)
       (tr : Trace),
      (∀ inp ∈ args, (lookupName inp.name ctable).isSome) →
      ∃ (sI : Trace) (eqs : List DeferredEq),
        processInputs ctable args tr [] = .completed (tr ++ sI) eqs ∧
        countMsgAsserts isEqMsg sI = 0 ∧
        (∀ trF : Trace, processEqualities args eqs (tr ++ sI) = .ok trF →
          postprocess_placeholders ctable args tr = .ok trF ∧
          ∃ sE : Trace, trF = (tr ++ sI) ++ sE ∧
            countMsgAsserts isEqMsg sE = eqs.length ∧
            countMsgAsserts isSpecMsg sE = 0 ∧
            countMsgAsserts isRangeMsg sE = 0))
    ∧ (∀ (ic : List (String × ValueRanges)) (ops : List GraphOp) (tr trF : Trace),
        processOperators ic ops tr = .ok trF →
        ∃ sO : Trace, trF = tr ++ sO ∧ ∀ p : AssertMsg → Bool, countMsgAsserts p sO = 0)
    ∧ (∃ tr : Trace,
        runPass ⟨[("x", ⟨[], [(0, "y", 0)]⟩), ("y", ⟨[(0, .intVal 3, .intVal 9)], []⟩)],
            [("x", [3]), ("y", [3])], []⟩ ⟨["x", "y"], []⟩ = .ok tr ∧
        countMsgAsserts isEqMsg tr = 1 ∧
        countMsgAsserts isEqMsg (tr.take 10) = 0 ∧
        countMsgAsserts isSpecMsg (tr.drop 10) = 0 ∧
        countMsgAsserts isRangeMsg (tr.drop 10) = 0 ∧
        (tr.drop 10).length = 4) := by
  refine ⟨?_, processOperators_append, ⟨_, rfl, rfl, rfl, rfl, rfl, rfl⟩⟩
  intro ctable args tr hall
  obtain ⟨tr1, eqs, hcomp⟩ := processInputs_completed ctable args hall tr []
  obtain ⟨sI, hsI⟩ : tr <+: tr1 := by
    have hp := processInputs_extends ctable args tr []
    rw [hcomp] at hp
    exact hp
  rw [← hsI] at hcomp
  have hc0 : countMsgAsserts isEqMsg sI = 0 := by
    have hc := countMsg_processInputs isEqMsg (fun _ _ _ => rfl) (fun _ _ _ _ => rfl)
      ctable args tr []
    rw [hcomp] at hc
    simp only [InputsResult.trace] at hc
    rw [countMsg_append] at hc
    omega
  refine ⟨sI, eqs, hcomp, hc0, ?_⟩
  intro trF hok
  constructor
  · unfold postprocess_placeholders
    rw [hcomp]
    exact hok
  · obtain ⟨sE, hsE⟩ : (tr ++ sI) <+: trF := processEqualities_extends args eqs _ _ hok
    obtain ⟨he, hs, hr⟩ := countMsg_processEqualities args eqs _ _ hok
    rw [← hsE, countMsg_append] at he hs hr
    exact ⟨sE, hsE.symm, by omega, by omega, by omega⟩

/-- Witness for C6's amended theorem, at Scenario C with `y` range
constrained. -/
theorem phase_order_input_then_equality_then_operators_witness :
    ∃ (sI : Trace) (eqs : List DeferredEq),
      processInputs [("x", [.equality 0 "y" 0]), ("y", [.range 0 ((3 : ℤ) : ExtInt) ((9 : ℤ) : ExtInt)])]
          [⟨"x", 0, [3]⟩, ⟨"y", 1, [3]⟩]
          [⟨.placeholderOp "x", []⟩, ⟨.placeholderOp "y", []⟩] [] =
        .completed ([⟨.placeholderOp "x", []⟩, ⟨.placeholderOp "y", []⟩] ++ sI) eqs ∧
      countMsgAsserts isEqMsg sI = 0 ∧
      (∀ trF : Trace,
        processEqualities [⟨"x", 0, [3]⟩, ⟨"y", 1, [3]⟩] eqs
            ([⟨.placeholderOp "x", []⟩, ⟨.placeholderOp "y", []⟩] ++ sI) = .ok trF →
        postprocess_placeholders
            [("x", [.equality 0 "y" 0]), ("y", [.range 0 ((3 : ℤ) : ExtInt) ((9 : ℤ) : ExtInt)])]
            [⟨"x", 0, [3]⟩, ⟨"y", 1, [3]⟩]
            [⟨.placeholderOp "x", []⟩, ⟨.placeholderOp "y", []⟩] = .ok trF ∧
        ∃ sE : Trace,
          trF = ([⟨.placeholderOp "x", []⟩, ⟨.placeholderOp "y", []⟩] ++ sI) ++ sE ∧
          countMsgAsserts isEqMsg sE = eqs.length ∧
          countMsgAsserts isSpecMsg sE = 0 ∧
          countMsgAsserts isRangeMsg sE = 0) :=
  phase_order_input_then_equality_then_operators.1
    [("x", [.equality 0 "y" 0]), ("y", [.range 0 ((3 : ℤ) : ExtInt) ((9 : ℤ) : ExtInt)])]
    [⟨"x", 0, [3]⟩, ⟨"y", 1, [3]⟩]
    [⟨.placeholderOp "x", []⟩, ⟨.placeholderOp "y", []⟩] (by decide)

/-! ### Claim C8 -/

/-- C8 counterexample: a non-integer inline-constraint bound is one of the
malformed-constraint failures the claim covers, yet it is raised during
operator processing, after the unconstrained input `x` already had its
specialization assertion chain inserted into the new graph — not before
graph mutation begins. -/
theorem inline_bound_error_after_mutation_began :
    runPass ⟨[], [("x", [3])], [("e", ⟨.symbolic "w", .intVal 9⟩)]⟩
        ⟨["x"], [⟨"f", some (.symScalar "e")⟩]⟩ =
      .error (.runtimeError "Export constraints cannot be non-integer expressions",
        [⟨.placeholderOp "x", []⟩, ⟨.symSize, [.node 0, .intLit 0]⟩,
         ⟨.eqOp, [.node 1, .intLit 3]⟩, ⟨.scalarTensor, [.node 2]⟩,
         ⟨.assertAsyncMsg, [.node 3, .msgVal (.specialized "x" 0 3)]⟩,
         ⟨.otherOp "f", []⟩])
    ∧ ([⟨.placeholderOp "x", []⟩, ⟨.symSize, [.node 0, .intLit 0]⟩,
        ⟨.eqOp, [.node 1, .intLit 3]⟩, ⟨.scalarTensor, [.node 2]⟩,
        ⟨.assertAsyncMsg, [.node 3, .msgVal (.specialized "x" 0 3)]⟩,
        ⟨.otherOp "f", []⟩] : Trace) ≠ [] :=
  ⟨rfl, by simp⟩

/-- C8 (amended): failures of the declared constraints (a non-integer
declared bound or an inverted merged range) come out of constraint
normalization, which `call` runs before the interpreter walk, so the pass
aborts with the new-graph trace still empty; a non-integer inline-constraint
bound raises the same fatal error only during operator processing, when
assertion nodes may already have been created — but in every case the pass
surfaces an error and no rewritten graph. -/
theorem declared_constraint_failures_precede_mutation :
    (∀ (m : ExportMeta) (g : Graph) (e : PyErr),
      _process_shape_constraints m.input_shape_constraints = .error e →
      runPass m g = .error (e, []))
    ∧ (∃ tr : Trace,
        runPass ⟨[], [("x", [3])], [("e", ⟨.symbolic "w", .intVal 9⟩)]⟩
            ⟨["x"], [⟨"f", some (.symScalar "e")⟩]⟩ =
          .error (.runtimeError "Export constraints cannot be non-integer expressions", tr)
        ∧ tr ≠ []) :=
  ⟨runPass_error_of_process_error, _, rfl, by simp⟩

/-- Witness for C8's amended theorem: a declared symbolic bound aborts the
pass with the new graph still empty. -/
theorem declared_constraint_failures_precede_mutation_witness :
    runPass ⟨[("x", ⟨[(0, .symbolic "s", .intVal 5)], []⟩)], [("x", [3])], []⟩ ⟨["x"], []⟩ =
      .error (.runtimeError "Export constraints cannot be non-integer expressions", []) :=
  declared_constraint_failures_precede_mutation.1 _ _ _ rfl

/-! ### The traversal collects no callbacks on success -/

mutual

/-- A successful `add_assertions` traversal returns no messages (and hence no
callbacks, as they are appended pairwise): the only branch that would append
one raises first.  This is what lets `call_operator` model the firing loop
as a no-op. -/
theorem add_assertions_ok_empty (ic : List (String × ValueRanges)) :
    ∀ (v : MetaVal) (msgs : List String), add_assertions ic v = .ok msgs → msgs = []
  | .symScalar e, msgs => by
    intro h
    rw [add_assertions] at h
    cases hl : lookupName e ic with
    | none => rw [hl] at h; cases h; rfl
    | some c =>
      simp only [hl] at h
      cases hlo : _convert_to_int c.lower with
      | error e1 => simp [Bind.bind, Except.bind, hlo] at h
      | ok lo =>
        cases hhi : _convert_to_int c.upper with
        | error e2 => simp [Bind.bind, Except.bind, hlo, hhi] at h
        | ok hi => simp [Bind.bind, Except.bind, hlo, hhi] at h
  | .concrete n, msgs => by
    intro h
    cases h
    rfl
  | .tensor shape, msgs => by
    intro h
    rw [add_assertions] at h
    exact addTensorAssertions_ok_empty ic shape 0 msgs h

/-- Companion of `add_assertions_ok_empty` for the enumerate loop. -/
theorem addTensorAssertions_ok_empty (ic : List (String × ValueRanges)) :
    ∀ (l : List MetaVal) (i : ℕ) (msgs : List String),
      addTensorAssertions ic l i = .ok msgs → msgs = []
  | [], i, msgs => by
    intro h
    cases h
    rfl
  | v :: rest, i, msgs => by
    intro h
    rw [addTensorAssertions] at h
    cases hv : add_assertions ic v with
    | error e1 => simp [Bind.bind, Except.bind, hv] at h
    | ok ms =>
      cases hrest : addTensorAssertions ic rest (i + 1) with
      | error e2 => simp [Bind.bind, Except.bind, hv, hrest] at h
      | ok tail =>
        simp only [Bind.bind, Except.bind, hv, hrest] at h
        have h1 : ms = [] := add_assertions_ok_empty ic v ms hv
        have h2 : tail = [] := addTensorAssertions_ok_empty ic rest (i + 1) tail hrest
        cases h
        simp [h1, h2]

end

end RuntimeAssertions
